import Mathlib

/-
Verification development for the Regix-cpp regular-expression engine
(src/main.cpp).  The C++ source is shallowly embedded: strings are
`List Char`, `std::string_view` slicing (`utils::slice(src, res)`) is
`List.drop`, the signed 64-bit `long` results of `Regix::match` are `Int`
(-1 is the failure signal), and `size_t` values are `Nat`.  The matcher
can genuinely diverge (e.g. `XAndMore` over a child that succeeds
consuming zero characters), and the parser can genuinely diverge (its
loops do not always make progress), so both are written with an explicit
fuel parameter; `none` / `.fuelOut` means the C++ computation does not
terminate within the given fuel, and a result that is `none` for every
fuel corresponds to actual non-termination of the C++ code.
-/

set_option maxHeartbeats 1000000

/-- Result of one parsing step.  `.ok` carries the values the C++ call
produces; `.oob` marks the execution reading `l.data[l.index]` out of
bounds (undefined behaviour in the C++); `.fuelOut` marks fuel
exhaustion of the model (a computation that is `.fuelOut` for every
fuel never terminates in C++). -/
inductive PRes (α : Type) where
  | ok (a : α)
  | oob
  | fuelOut
deriving Repr, DecidableEq

/-- The AST node variants of `namespace regix` in src/main.cpp:
`Any`, `Char`, `Numeric`, `Whitespace`, `Letter`, `XAndMore` (repeat
with minimum `amount`), `Optional`, `Capture` (children plus capture
id), `Group` (plain sequence), `Or`, `Not`. -/
inductive Regix where
  | any : Regix
  | char (c : Char) : Regix
  | numeric : Regix
  | whitespace : Regix
  | letter : Regix
  | xAndMore (inner : Regix) (amount : Nat) : Regix
  | optional (inner : Regix) : Regix
  | capture (inner : List Regix) (id : Int) : Regix
  | group (inner : List Regix) : Regix
  | or (left right : Regix) : Regix
  | not (inner : Regix) : Regix
deriving Repr

mutual

/-- Number of `Not` nodes in an AST (used to bound match results). -/
def notCount : Regix → Nat
  | .any => 0
  | .char _ => 0
  | .numeric => 0
  | .whitespace => 0
  | .letter => 0
  | .xAndMore inner _ => notCount inner
  | .optional inner => notCount inner
  | .capture xs _ => notCountL xs
  | .group xs => notCountL xs
  | .or l r => notCount l + notCount r
  | .not inner => notCount inner + 1

/-- `notCount` summed over a list of children. -/
def notCountL : List Regix → Nat
  | [] => 0
  | x :: xs => notCount x + notCountL xs

end

/-- `utils::isPeekChar`: true iff the string is nonempty and its first
character is `c`. -/
def isPeekChar (s : List Char) (c : Char) : Bool :=
  match s with
  | [] => false
  | d :: _ => d == c

/-- `utils::isPeek` with a single-character predicate: true iff the
string is nonempty and its first character satisfies the predicate. -/
def isPeekPred (s : List Char) (f : Char → Bool) : Bool :=
  match s with
  | [] => false
  | d :: _ => f d

/-- Models C `isspace` in the C locale (the classifier behind the
`Whitespace` node). -/
def isSpaceC (c : Char) : Bool :=
  c == ' ' || c == '\t' || c == '\n' || c == '\x0b' || c == '\x0c' || c == '\r'

mutual

/-- `Regix::match` for each node variant, at the given fuel.  Faithful
to src/main.cpp with two documented modelling choices: (1) the
uninitialised locals `matchCount` / `matchAmount` of `XAndMore::match`
and `matchAmount` of `Capture::match` are taken at the intended value 0
(see `xLoopG` for the variant that keeps them indeterminate); (2) the
capture-table write `matches[id].push_back(...)` of `Capture::match`
(an out-of-bounds access on the empty table `doesMatch` allocates) is
not tracked, since only the consumed length is needed here. -/
def matchR : Nat → Regix → List Char → Option Int
  | 0, _, _ => none
  | _ + 1, .any, s => some (if s.isEmpty then -1 else 1)
  | _ + 1, .char c, s => some (if isPeekChar s c then 1 else -1)
  | _ + 1, .numeric, s => some (if isPeekPred s Char.isDigit then 1 else -1)
  | _ + 1, .whitespace, s => some (if isPeekPred s isSpaceC then 1 else -1)
  | _ + 1, .letter, s => some (if isPeekPred s Char.isAlpha then 1 else -1)
  | f + 1, .xAndMore inner n, s => xLoop f inner n 0 0 s
  | f + 1, .optional inner, s =>
      match matchR f inner s with
      | none => none
      | some r => some (if r < 0 then 0 else r)
  | f + 1, .capture xs _, s => matchList f xs s
  | f + 1, .group xs, s => matchList f xs s
  | f + 1, .or l r, s =>
      match matchR f l s with
      | none => none
      | some v => if v < 0 then matchR f r s else some v
  | f + 1, .not inner, s =>
      match matchR f inner s with
      | none => none
      | some v => some (if v < 0 then 1 else -1)

/-- The child loop shared by `Group::match` and `Capture::match`: run
the children left to right over successively dropped input, return -1
on the first failure, else the sum of consumed lengths. -/
def matchList : Nat → List Regix → List Char → Option Int
  | 0, _, _ => none
  | _ + 1, [], _ => some 0
  | f + 1, x :: xs, s =>
      match matchR f x s with
      | none => none
      | some r =>
        if r < 0 then some (-1)
        else
          match matchList f xs (s.drop r.toNat) with
          | none => none
          | some rest => some (if rest < 0 then -1 else r + rest)

/-- The `while (true)` loop of `XAndMore::match`, with the repetition
count and accumulated length threaded explicitly (started at 0 by
`matchR`, mirroring the intended initialisation). -/
def xLoop : Nat → Regix → Nat → Nat → Int → List Char → Option Int
  | 0, _, _, _, _, _ => none
  | f + 1, inner, mn, count, amount, src =>
      match matchR f inner src with
      | none => none
      | some res =>
        if res < 0 then some (if mn ≤ count then amount else -1)
        else xLoop f inner mn (count + 1) (amount + res) (src.drop res.toNat)

end

/-- Conversion of a signed 64-bit `long` value to `size_t` as applied by
the usual arithmetic conversions in C++ (reduction modulo 2^64; `%` on
`Int` is the nonnegative Euclidean remainder). -/
def uLong (x : Int) : Int := x % (2 ^ 64 : Int)

/-- The `XAndMore::match` loop with its two uninitialised locals kept
indeterminate: `count0` models the residual stack contents read as
`matchCount` and `amount0` those read as `matchAmount` (the C++ leaves
both uninitialised; `matchCount >= amount` compares the `long` counter
against the `size_t` minimum, converting the counter to unsigned). -/
def xLoopG : Nat → Regix → Nat → Int → Int → List Char → Option Int
  | 0, _, _, _, _, _ => none
  | f + 1, inner, mn, count, amount, src =>
      match matchR f inner src with
      | none => none
      | some res =>
        if res < 0 then some (if (mn : Int) ≤ uLong count then amount else -1)
        else xLoopG f inner mn (count + 1) (amount + res) (src.drop res.toNat)

/-- `Regix::doesMatch`: run `match` on the whole input and compare the
`long` result against `source.size()`; the comparison converts the
signed result to `size_t`, hence the reduction modulo 2^64.  The input
list stands for a `std::string_view`, whose length is below 2^64. -/
def doesMatch (fuel : Nat) (p : Regix) (s : List Char) : Option Bool :=
  (matchR fuel p s).map (fun r => (r % (2 ^ 64 : Int)) == Int.ofNat s.length)

/-- `lexer::Lexer`: a view over the pattern text plus a cursor. -/
structure Lexer where
  data : List Char
  index : Nat
deriving Repr, DecidableEq

/-- `Lexer::consume()` with the default amount 1. -/
def Lexer.bump (l : Lexer) : Lexer := ⟨l.data, l.index + 1⟩

/-- `Lexer::isDone`: `index >= data.size()`. -/
def Lexer.isDone (l : Lexer) : Bool := l.data.length ≤ l.index

/-- `Lexer::isPeek(char c)`.  Note the bound check is `index + 1 >=
data.size()`, so a character sitting at the final position is never
seen by this peek. -/
def Lexer.isPeekC (l : Lexer) (c : Char) : Bool :=
  if l.data.length ≤ l.index + 1 then false
  else l.data.getD l.index ' ' == c

/-- The reserved metacharacters (`regix::invalidChars`). -/
def invalidChars : List Char := ['(', '[', '|', '?', '*', '+', '.', '^', ']', ')']

/-- `Lexer::isPeek(1, f)` with `f` testing that the next character is
not reserved — the loop condition of `parseSimpleRegix`.  This overload
checks `index + amount > data.size()`, so unlike `isPeekC` it does see
the final character. -/
def Lexer.peekValid (l : Lexer) : Bool :=
  if l.data.length < l.index + 1 then false
  else !(invalidChars.contains (l.data.getD l.index ' '))

/-- The `while` loop of `regix::parseSimpleRegix`: consume a maximal
run of unreserved characters, translating `\l`, `\d`, `\w` to the
classifier nodes, any other escaped character and every plain character
to `Char` nodes.  Returns `false` when an escape ends the pattern early
(`return false` inside the loop).  In C++ this loop always terminates
because every iteration consumes at least one character; here it is
written on a fuel that the caller (`parseSimpleRegix`) chooses as one
more than the number of remaining characters, which therefore always
suffices, so the fuel-exhaustion branch is unreachable. -/
def simpleLoop : Nat → Lexer → List Regix → Bool × Lexer × List Regix
  | 0, l, buf => (true, l, buf)
  | f + 1, l, buf =>
    if l.peekValid then
      let c := l.data.getD l.index ' '
      let l1 : Lexer := ⟨l.data, l.index + 1⟩
      if c = '\\' then
        if l1.isDone then (false, l1, buf)
        else
          let p := l1.data.getD l1.index ' '
          let l2 : Lexer := ⟨l1.data, l1.index + 1⟩
          let node := if p = 'l' then Regix.letter
            else if p = 'd' then Regix.numeric
            else if p = 'w' then Regix.whitespace
            else Regix.char p
          simpleLoop f l2 (buf ++ [node])
      else
        simpleLoop f l1 (buf ++ [Regix.char c])
    else (true, l, buf)

/-- `regix::parseSimpleRegix`: run the literal loop; fail on a dangling
escape or an empty run, otherwise append one `Group` over the run to
`previous`. -/
def parseSimpleRegix (l : Lexer) (previous : List Regix) :
    Bool × Lexer × List Regix :=
  match simpleLoop (l.data.length + 1 - l.index) l [] with
  | (false, l1, _) => (false, l1, previous)
  | (true, l1, buf) =>
    if buf.isEmpty then (false, l1, previous)
    else (true, l1, previous ++ [Regix.group buf])

mutual

/-- `regix::parseRegix`.  The state is `(returned bool, lexer,
previous, captureGroups)`; the capture counter is the `long&` threaded
through the recursion (left uninitialised by `constructRegix`, hence a
parameter there).  Where the C++ ignores the `bool` returned by a
recursive call, the model still propagates `.oob` / `.fuelOut`, since
those stand for executions that never return.  In the `'('` / `'['`
cases the check `if (!l.isPeek(...)) return false;` after the loop is
omitted: the loop only exits when that peek is true.  In the `'^'` case
the C++ does not consume the caret before recursing. -/
def parseRegix : Nat → Lexer → List Regix → Int →
    PRes (Bool × Lexer × List Regix × Int)
  | 0, _, _, _ => PRes.fuelOut
  | f + 1, l, previous, cg =>
    match l.data.get? l.index with
    | none => PRes.oob
    | some c =>
      if c = '(' then
        match parseLoop f ')' l.bump [] cg with
        | PRes.ok (l2, buf, cg2) =>
            PRes.ok (true, l2.bump, previous ++ [Regix.capture buf cg2], cg2 + 1)
        | PRes.oob => PRes.oob
        | PRes.fuelOut => PRes.fuelOut
      else if c = '[' then
        match parseLoop f ']' l.bump [] cg with
        | PRes.ok (l2, buf, cg2) =>
            PRes.ok (true, l2.bump, previous ++ [Regix.group buf], cg2)
        | PRes.oob => PRes.oob
        | PRes.fuelOut => PRes.fuelOut
      else if c = '|' then
        if previous.isEmpty then PRes.ok (false, l.bump, previous, cg)
        else
          match parseRegix f l.bump [] cg with
          | PRes.ok (_, l2, right, cg2) =>
              match right with
              | [r0] => PRes.ok (true, l2,
                  previous.dropLast ++ [Regix.or (previous.getLastD Regix.any) r0], cg2)
              | _ => PRes.ok (false, l2, previous.dropLast, cg2)
          | PRes.oob => PRes.oob
          | PRes.fuelOut => PRes.fuelOut
      else if c = '?' then
        if previous.isEmpty then PRes.ok (false, l.bump, previous, cg)
        else PRes.ok (true, l.bump,
          previous.dropLast ++ [Regix.optional (previous.getLastD Regix.any)], cg)
      else if c = '*' then
        if previous.isEmpty then PRes.ok (false, l.bump, previous, cg)
        else PRes.ok (true, l.bump,
          previous.dropLast ++ [Regix.xAndMore (previous.getLastD Regix.any) 0], cg)
      else if c = '+' then
        if previous.isEmpty then PRes.ok (false, l.bump, previous, cg)
        else PRes.ok (true, l.bump,
          previous.dropLast ++ [Regix.xAndMore (previous.getLastD Regix.any) 1], cg)
      else if c = '.' then
        PRes.ok (true, l.bump, previous ++ [Regix.any], cg)
      else if c = '^' then
        match parseRegix f l [] cg with
        | PRes.ok (_, l2, buf, cg2) =>
            match buf with
            | [b0] => PRes.ok (true, l2, previous ++ [Regix.not b0], cg2)
            | _ => PRes.ok (false, l2, previous, cg2)
        | PRes.oob => PRes.oob
        | PRes.fuelOut => PRes.fuelOut
      else
        match parseSimpleRegix l previous with
        | (b, l1, prev1) => PRes.ok (b, l1, prev1, cg)

/-- The `while (!l.isPeek(close)) parseRegix(...)` loops of the `'('`
and `'['` cases (the returned bool of each iteration is ignored). -/
def parseLoop : Nat → Char → Lexer → List Regix → Int →
    PRes (Lexer × List Regix × Int)
  | 0, _, _, _, _ => PRes.fuelOut
  | f + 1, close, l, buf, cg =>
    if l.isPeekC close then PRes.ok (l, buf, cg)
    else
      match parseRegix f l buf cg with
      | PRes.ok (_, l1, buf1, cg1) => parseLoop f close l1 buf1 cg1
      | PRes.oob => PRes.oob
      | PRes.fuelOut => PRes.fuelOut

end

/-- The `while (!lexer.isDone()) parseRegix(...)` loop of
`regix::constructRegix` (the returned bool is ignored). -/
def constructLoop : Nat → Lexer → List Regix → Int → PRes Regix
  | 0, _, _, _ => PRes.fuelOut
  | f + 1, l, buf, cg =>
    if l.isDone then PRes.ok (Regix.group buf)
    else
      match parseRegix f l buf cg with
      | PRes.ok (_, l1, buf1, cg1) => constructLoop f l1 buf1 cg1
      | PRes.oob => PRes.oob
      | PRes.fuelOut => PRes.fuelOut

/-- `regix::constructRegix`.  `captureId0` models the uninitialised
`long captureId;` the C++ passes by reference into the parse. -/
def constructRegix (fuel : Nat) (s : List Char) (captureId0 : Int) : PRes Regix :=
  constructLoop fuel ⟨s, 0⟩ [] captureId0

/-- Fuel monotonicity of the match engine: a result obtained at some
fuel is stable under one more unit of fuel (jointly for `matchR`,
`matchList` and `xLoop`). -/
theorem fuel_mono :
    ∀ f : Nat,
      (∀ p s r, matchR f p s = some r → matchR (f + 1) p s = some r) ∧
      (∀ xs s r, matchList f xs s = some r → matchList (f + 1) xs s = some r) ∧
      (∀ x mn c a s r, xLoop f x mn c a s = some r → xLoop (f + 1) x mn c a s = some r) := by
  intro f
  induction f with
  | zero =>
    refine ⟨?_, ?_, ?_⟩ <;> intros <;> simp_all [matchR, matchList, xLoop]
  | succ g ih =>
    obtain ⟨ihR, ihL, ihX⟩ := ih
    refine ⟨?_, ?_, ?_⟩
    · intro p s r h
      cases p with
      | any => simpa [matchR] using h
      | char c => simpa [matchR] using h
      | numeric => simpa [matchR] using h
      | whitespace => simpa [matchR] using h
      | letter => simpa [matchR] using h
      | xAndMore inner n =>
        simp only [matchR] at h ⊢
        exact ihX _ _ _ _ _ _ h
      | optional inner =>
        simp only [matchR] at h ⊢
        cases hm : matchR g inner s with
        | none => rw [hm] at h; exact absurd h (by simp)
        | some v => rw [hm] at h; rw [ihR _ _ _ hm]; exact h
      | capture xs id =>
        simp only [matchR] at h ⊢
        exact ihL _ _ _ h
      | group xs =>
        simp only [matchR] at h ⊢
        exact ihL _ _ _ h
      | or left right =>
        simp only [matchR] at h ⊢
        cases hm : matchR g left s with
        | none => rw [hm] at h; exact absurd h (by simp)
        | some v =>
          rw [hm] at h
          rw [ihR _ _ _ hm]
          dsimp only at h ⊢
          by_cases hv : v < 0
          · rw [if_pos hv] at h ⊢
            exact ihR _ _ _ h
          · rwa [if_neg hv] at h ⊢
      | not inner =>
        simp only [matchR] at h ⊢
        cases hm : matchR g inner s with
        | none => rw [hm] at h; exact absurd h (by simp)
        | some v => rw [hm] at h; rw [ihR _ _ _ hm]; exact h
    · intro xs s r h
      cases xs with
      | nil => simpa [matchList] using h
      | cons x xs =>
        simp only [matchList] at h ⊢
        cases hm : matchR g x s with
        | none => rw [hm] at h; exact absurd h (by simp)
        | some v =>
          rw [hm] at h
          rw [ihR _ _ _ hm]
          dsimp only at h ⊢
          by_cases hv : v < 0
          · rwa [if_pos hv] at h ⊢
          · rw [if_neg hv] at h ⊢
            cases hrest : matchList g xs (s.drop v.toNat) with
            | none => rw [hrest] at h; exact absurd h (by simp)
            | some w => rw [hrest] at h; rw [ihL _ _ _ hrest]; exact h
    · intro x mn c a s r h
      simp only [xLoop] at h ⊢
      cases hm : matchR g x s with
      | none => rw [hm] at h; exact absurd h (by simp)
      | some v =>
        rw [hm] at h
        rw [ihR _ _ _ hm]
        dsimp only at h ⊢
        by_cases hv : v < 0
        · rwa [if_pos hv] at h ⊢
        · rw [if_neg hv] at h ⊢
          exact ihX _ _ _ _ _ _ h

/-- Fuel monotonicity of `matchR`, between arbitrary fuels. -/
theorem matchR_mono_le {f g : Nat} (hfg : f ≤ g) {p : Regix} {s : List Char}
    {r : Int} (h : matchR f p s = some r) : matchR g p s = some r := by
  induction hfg with
  | refl => exact h
  | step _ ih => exact (fuel_mono _).1 _ _ _ ih

/-- Two defined results of `matchR` at any two fuels agree. -/
theorem matchR_agree {f g : Nat} {p : Regix} {s : List Char} {r w : Int}
    (hf : matchR f p s = some r) (hg : matchR g p s = some w) : r = w := by
  rcases Nat.le_total f g with hle | hle
  · have := matchR_mono_le hle hf
    rw [this] at hg
    exact (Option.some.injEq _ _ ▸ hg)
  · have := matchR_mono_le hle hg
    rw [this] at hf
    exact (Option.some.injEq _ _ ▸ hf).symm

/-- If the repeated child of `XAndMore` succeeds on the empty input at
some fuel, the `XAndMore` loop never terminates on the empty input
(every iteration succeeds again without shrinking anything): the model
returns `none` at every fuel. -/
theorem xLoop_empty_none {x : Regix} {g : Nat} {v : Int}
    (hg : matchR g x [] = some v) (hv : 0 ≤ v) :
    ∀ (f : Nat) (mn c : Nat) (a : Int), xLoop f x mn c a [] = none := by
  intro f
  induction f with
  | zero => intro mn c a; rfl
  | succ f ih =>
    intro mn c a
    simp only [xLoop]
    cases hm : matchR f x [] with
    | none => rfl
    | some w =>
      have hwv : w = v := matchR_agree hm hg
      dsimp only
      rw [if_neg (show ¬ w < 0 by omega)]
      rw [List.drop_nil]
      exact ih mn (c + 1) (a + w)

/-- Result bound for the match engine: a defined result is either the
failure signal -1, or a nonnegative consumed length bounded by the
input length plus the number of `Not` nodes (each `Not` can report its
fixed 1 even on an exhausted input, which is the only way a node can
claim more characters than it was given). -/
theorem bound_all :
    ∀ f : Nat,
      (∀ p s r, matchR f p s = some r →
        r = -1 ∨ (0 ≤ r ∧ r ≤ (s.length : Int) + notCount p)) ∧
      (∀ xs s r, matchList f xs s = some r →
        r = -1 ∨ (0 ≤ r ∧ r ≤ (s.length : Int) + notCountL xs)) ∧
      (∀ x mn c a s r, 0 ≤ a → xLoop f x mn c a s = some r →
        r = -1 ∨ (0 ≤ r ∧ r ≤ a + (s.length : Int) + notCount x)) := by
  intro f
  induction f with
  | zero =>
    refine ⟨?_, ?_, ?_⟩ <;> intros <;> simp_all [matchR, matchList, xLoop]
  | succ g ih =>
    obtain ⟨ihR, ihL, ihX⟩ := ih
    refine ⟨?_, ?_, ?_⟩
    · intro p s r h
      cases p with
      | any =>
        simp only [matchR, Option.some.injEq] at h
        subst h
        cases s with
        | nil => left; simp
        | cons d t => right; constructor <;> simp [notCount]
      | char c =>
        simp only [matchR, Option.some.injEq] at h
        subst h
        cases s with
        | nil => left; simp [isPeekChar]
        | cons d t =>
          by_cases hp : isPeekChar (d :: t) c
          · right; rw [if_pos hp]; refine ⟨by omega, ?_⟩
            simp [notCount]
          · left; rw [if_neg hp]
      | numeric =>
        simp only [matchR, Option.some.injEq] at h
        subst h
        cases s with
        | nil => left; simp [isPeekPred]
        | cons d t =>
          by_cases hp : isPeekPred (d :: t) Char.isDigit
          · right; rw [if_pos hp]; refine ⟨by omega, ?_⟩
            simp [notCount]
          · left; rw [if_neg hp]
      | whitespace =>
        simp only [matchR, Option.some.injEq] at h
        subst h
        cases s with
        | nil => left; simp [isPeekPred]
        | cons d t =>
          by_cases hp : isPeekPred (d :: t) isSpaceC
          · right; rw [if_pos hp]; refine ⟨by omega, ?_⟩
            simp [notCount]
          · left; rw [if_neg hp]
      | letter =>
        simp only [matchR, Option.some.injEq] at h
        subst h
        cases s with
        | nil => left; simp [isPeekPred]
        | cons d t =>
          by_cases hp : isPeekPred (d :: t) Char.isAlpha
          · right; rw [if_pos hp]; refine ⟨by omega, ?_⟩
            simp [notCount]
          · left; rw [if_neg hp]
      | xAndMore inner n =>
        simp only [matchR] at h
        have := ihX inner n 0 0 s r le_rfl h
        simpa [notCount] using this
      | optional inner =>
        simp only [matchR] at h
        cases hm : matchR g inner s with
        | none => rw [hm] at h; exact absurd h (by simp)
        | some v =>
          rw [hm] at h
          dsimp only at h
          simp only [Option.some.injEq] at h
          subst h
          by_cases hv : v < 0
          · right; rw [if_pos hv]; simp [notCount]
            positivity
          · right; rw [if_neg hv]
            rcases ihR _ _ _ hm with h1 | h1
            · omega
            · simpa [notCount] using h1
      | capture xs id =>
        simp only [matchR] at h
        simpa [notCount] using ihL _ _ _ h
      | group xs =>
        simp only [matchR] at h
        simpa [notCount] using ihL _ _ _ h
      | or left right =>
        simp only [matchR] at h
        cases hm : matchR g left s with
        | none => rw [hm] at h; exact absurd h (by simp)
        | some v =>
          rw [hm] at h
          dsimp only at h
          by_cases hv : v < 0
          · rw [if_pos hv] at h
            rcases ihR _ _ _ h with h1 | h1
            · left; exact h1
            · right; refine ⟨h1.1, ?_⟩
              have := h1.2
              simp only [notCount]
              push_cast
              omega
          · rw [if_neg hv] at h
            simp only [Option.some.injEq] at h
            subst h
            rcases ihR _ _ _ hm with h1 | h1
            · omega
            · right; refine ⟨h1.1, ?_⟩
              have := h1.2
              simp only [notCount]
              push_cast
              omega
      | not inner =>
        simp only [matchR] at h
        cases hm : matchR g inner s with
        | none => rw [hm] at h; exact absurd h (by simp)
        | some v =>
          rw [hm] at h
          dsimp only at h
          simp only [Option.some.injEq] at h
          subst h
          by_cases hv : v < 0
          · right; rw [if_pos hv]
            simp only [notCount]
            constructor
            · omega
            · push_cast; omega
          · left; rw [if_neg hv]
    · intro xs s r h
      cases xs with
      | nil =>
        simp only [matchList, Option.some.injEq] at h
        subst h
        right; exact ⟨le_refl 0, by positivity⟩
      | cons x xs =>
        simp only [matchList] at h
        cases hm : matchR g x s with
        | none => rw [hm] at h; exact absurd h (by simp)
        | some v =>
          rw [hm] at h
          dsimp only at h
          by_cases hv : v < 0
          · rw [if_pos hv] at h
            simp only [Option.some.injEq] at h
            subst h
            left; rfl
          · rw [if_neg hv] at h
            cases hrest : matchList g xs (s.drop v.toNat) with
            | none => rw [hrest] at h; exact absurd h (by simp)
            | some w =>
              rw [hrest] at h
              dsimp only at h
              simp only [Option.some.injEq] at h
              subst h
              by_cases hw : w < 0
              · left; rw [if_pos hw]
              · rw [if_neg hw]
                rcases ihR _ _ _ hm with h1 | h1
                · omega
                · rcases ihL _ _ _ hrest with h2 | h2
                  · omega
                  · right
                    have hb1 := h1.2
                    have hb2 := h2.2
                    rw [List.length_drop] at hb2
                    have hvnat : (v.toNat : Int) = v := Int.toNat_of_nonneg (by omega)
                    simp only [notCountL]
                    refine ⟨by omega, ?_⟩
                    push_cast at hb1 hb2 ⊢
                    omega
    · intro x mn c a s r ha h
      simp only [xLoop] at h
      cases hm : matchR g x s with
      | none => rw [hm] at h; exact absurd h (by simp)
      | some v =>
        rw [hm] at h
        dsimp only at h
        by_cases hv : v < 0
        · rw [if_pos hv] at h
          simp only [Option.some.injEq] at h
          subst h
          by_cases hc : mn ≤ c
          · rw [if_pos hc]; right; refine ⟨ha, ?_⟩
            have : (0 : Int) ≤ (s.length : Int) + notCount x := by positivity
            omega
          · rw [if_neg hc]; left; rfl
        · rw [if_neg hv] at h
          have hvb : v ≤ (s.length : Int) + notCount x := by
            rcases ihR _ _ _ hm with h1 | h1
            · omega
            · exact h1.2
          by_cases hdrop : v.toNat ≤ s.length
          · have := ihX x mn (c + 1) (a + v) (s.drop v.toNat) r (by omega) h
            rcases this with h1 | h1
            · left; exact h1
            · right
              refine ⟨h1.1, ?_⟩
              have hb := h1.2
              rw [List.length_drop] at hb
              have hvnat : (v.toNat : Int) = v := Int.toNat_of_nonneg (by omega)
              omega
          · have hnil : s.drop v.toNat = [] :=
              List.drop_eq_nil_of_le (by omega)
            rw [hnil] at h
            cases g with
            | zero => exact absurd h (by simp [xLoop])
            | succ g1 =>
              simp only [xLoop] at h
              cases hm2 : matchR g1 x [] with
              | none => rw [hm2] at h; exact absurd h (by simp)
              | some w =>
                rw [hm2] at h
                dsimp only at h
                by_cases hw : w < 0
                · rw [if_pos hw] at h
                  simp only [Option.some.injEq] at h
                  by_cases hc : mn ≤ c + 1
                  · rw [if_pos hc] at h
                    subst h
                    right
                    refine ⟨by omega, ?_⟩
                    have hsl : ((s.length : Int)) ≤ (s.length : Int) := le_rfl
                    omega
                  · rw [if_neg hc] at h
                    subst h
                    left; rfl
                · rw [if_neg hw] at h
                  rw [List.drop_nil] at h
                  have := xLoop_empty_none hm2 (by omega) g1 mn (c + 1 + 1) (a + v + w)
                  rw [this] at h
                  exact absurd h (by simp)
    
/-- The bound of `bound_all`, stated for `matchR` alone. -/
theorem matchR_bound {f : Nat} {p : Regix} {s : List Char} {r : Int}
    (h : matchR f p s = some r) :
    r = -1 ∨ (0 ≤ r ∧ r ≤ (s.length : Int) + notCount p) :=
  (bound_all f).1 p s r h

/-- The reserved metacharacters together with the escape character: a
"literal string" in the sense of the spec contains none of these. -/
def metaChars : List Char := invalidChars ++ ['\\']

/-- Matching a run of `Char` nodes consumes exactly the run when it is
a prefix of the input, and fails with -1 otherwise. -/
theorem matchList_chars :
    ∀ (S t : List Char) (f : Nat), S.length + 1 ≤ f →
      matchList f (S.map Regix.char) t =
        some (if S <+: t then (S.length : Int) else -1) := by
  intro S
  induction S with
  | nil =>
    intro t f hf
    match f, hf with
    | f + 1, _ => simp [matchList]
  | cons c S ih =>
    intro t f hf
    match f, hf with
    | f + 1, hf =>
      have hf1 : S.length + 1 ≤ f := by
        simp only [List.length_cons] at hf; omega
      simp only [List.map_cons, matchList]
      have hch : matchR f (Regix.char c) t =
          some (if isPeekChar t c then 1 else -1) := by
        match f, hf1 with
        | f + 1, _ => simp [matchR]
      rw [hch]
      dsimp only
      cases t with
      | nil =>
        have hnp : ¬ (c :: S <+: []) := by
          intro hp
          have := hp.length_le
          simp at this
        simp [isPeekChar, hnp]
      | cons d t =>
        by_cases hdc : d = c
        · have hpk : isPeekChar (d :: t) c = true := by
            simp [isPeekChar, hdc]
          rw [hpk, if_pos rfl]
          rw [if_neg (by norm_num : ¬ (1 : Int) < 0)]
          have hdrop : (d :: t).drop (1 : Int).toNat = t := by simp
          rw [hdrop, ih t f hf1]
          dsimp only
          by_cases hpre : S <+: t
          · have hcp : c :: S <+: d :: t := by
              rw [List.cons_prefix_cons]
              exact ⟨hdc.symm, hpre⟩
            rw [if_pos hpre, if_pos hcp]
            rw [if_neg (not_lt.mpr (Int.natCast_nonneg S.length))]
            simp only [List.length_cons, Option.some.injEq]
            push_cast
            ring
          · have hncp : ¬ (c :: S <+: d :: t) := by
              intro hp
              rw [List.cons_prefix_cons] at hp
              exact hpre hp.2
            rw [if_neg hpre, if_neg hncp]
            norm_num
        · have hpk : isPeekChar (d :: t) c = false := by
            simpa [isPeekChar] using hdc
          rw [hpk]
          have hm1 : (if false = true then (1 : Int) else -1) = -1 := by norm_num
          rw [hm1]
          rw [if_pos (by norm_num : (-1 : Int) < 0)]
          have hncp : ¬ (c :: S <+: d :: t) := by
            intro hp
            rw [List.cons_prefix_cons] at hp
            exact hdc hp.1.symm
          rw [if_neg hncp]

/-- Running the literal loop over a remainder made only of unreserved,
unescaped characters consumes the whole remainder and emits one `Char`
node per character. -/
theorem simpleLoop_literal :
    ∀ (rest front : List Char) (buf : List Regix) (f : Nat),
      rest.length ≤ f →
      (∀ ch ∈ rest, ch ∉ metaChars) →
      simpleLoop (f + 1) ⟨front ++ rest, front.length⟩ buf =
        (true, ⟨front ++ rest, front.length + rest.length⟩,
          buf ++ rest.map Regix.char) := by
  intro rest
  induction rest with
  | nil =>
    intro front buf f _ _
    rw [simpleLoop]
    have hpv : (Lexer.mk (front ++ []) front.length).peekValid = false := by
      simp [Lexer.peekValid]
    rw [hpv]
    simp
  | cons ch rest ih =>
    intro front buf f hf hmeta
    have hch : ch ∉ metaChars := hmeta ch (by simp)
    have hget : (front ++ ch :: rest).getD front.length ' ' = ch := by
      have h1 : (front ++ ch :: rest)[front.length]? = some ch := by
        rw [List.getElem?_append_right le_rfl]
        simp
      simp [List.getD, h1]
    have hmem : ch ∉ invalidChars := fun hmem => hch (by simp [metaChars, hmem])
    have hnin : invalidChars.contains ch = false := by simpa using hmem
    have hpv : (Lexer.mk (front ++ ch :: rest) front.length).peekValid = true := by
      simp only [Lexer.peekValid]
      rw [if_neg (show ¬ (front ++ ch :: rest).length < front.length + 1 by simp)]
      rw [hget, hnin]
      rfl
    rw [simpleLoop]
    rw [hpv]
    rw [if_pos rfl]
    dsimp only
    rw [hget]
    have hbs : ¬ ch = '\\' := fun he => hch (by simp [metaChars, he])
    rw [if_neg hbs]
    obtain ⟨f1, rfl⟩ : ∃ f1, f = f1 + 1 := ⟨f - 1, by simp at hf; omega⟩
    have hih := ih (front ++ [ch]) (buf ++ [Regix.char ch]) f1
      (by simp at hf; omega) (fun c hc => hmeta c (by simp [hc]))
    simp only [List.append_assoc, List.singleton_append, List.length_append,
      List.length_singleton] at hih ⊢
    rw [hih]
    simp [Nat.add_assoc, Nat.add_comm, Nat.add_left_comm]

/-- On a pattern that is one nonempty literal run, `parseSimpleRegix`
consumes everything and appends a single `Group` of `Char` nodes. -/
theorem parseSimpleRegix_literal (S : List Char) (previous : List Regix)
    (hS : S ≠ []) (hmeta : ∀ ch ∈ S, ch ∉ metaChars) :
    parseSimpleRegix ⟨S, 0⟩ previous =
      (true, ⟨S, S.length⟩, previous ++ [Regix.group (S.map Regix.char)]) := by
  unfold parseSimpleRegix
  have hsl := simpleLoop_literal S [] [] S.length le_rfl hmeta
  simp only [List.nil_append, List.length_nil, Nat.zero_add, List.nil_append] at hsl
  have hfuel : (Lexer.mk S 0).data.length + 1 - (Lexer.mk S 0).index = S.length + 1 := by
    simp
  rw [hfuel]
  rw [hsl]
  have hne : (S.map Regix.char).isEmpty = false := by
    cases S with
    | nil => exact absurd rfl hS
    | cons c S' => rfl
  simp [hne]

/-- The AST `constructRegix` produces for a literal pattern string: the
top-level `Group` over the single run `Group` (or over nothing when the
pattern is empty). -/
def literalPattern (S : List Char) : Regix :=
  Regix.group (if S.isEmpty then [] else [Regix.group (S.map Regix.char)])

/-- Compiling a literal pattern string (fuel 3 suffices: one top-level
iteration parses the whole run) yields `literalPattern`. -/
theorem constructRegix_literal (S : List Char) (c0 : Int)
    (hmeta : ∀ ch ∈ S, ch ∉ metaChars) :
    constructRegix 3 S c0 = PRes.ok (literalPattern S) := by
  cases S with
  | nil => rfl
  | cons c S' =>
    have hc : c ∉ metaChars := hmeta c (by simp)
    have h1 : ¬ c = '(' := fun he => hc (by rw [he]; decide)
    have h2 : ¬ c = '[' := fun he => hc (by rw [he]; decide)
    have h3 : ¬ c = '|' := fun he => hc (by rw [he]; decide)
    have h4 : ¬ c = '?' := fun he => hc (by rw [he]; decide)
    have h5 : ¬ c = '*' := fun he => hc (by rw [he]; decide)
    have h6 : ¬ c = '+' := fun he => hc (by rw [he]; decide)
    have h7 : ¬ c = '.' := fun he => hc (by rw [he]; decide)
    have h8 : ¬ c = '^' := fun he => hc (by rw [he]; decide)
    unfold constructRegix
    rw [constructLoop]
    rw [if_neg (by simp [Lexer.isDone])]
    rw [parseRegix]
    have hget : (Lexer.mk (c :: S') 0).data.get? (Lexer.mk (c :: S') 0).index = some c := rfl
    rw [hget]
    dsimp only
    rw [if_neg h1, if_neg h2, if_neg h3, if_neg h4, if_neg h5, if_neg h6, if_neg h7, if_neg h8]
    rw [parseSimpleRegix_literal (c :: S') [] (by simp) hmeta]
    dsimp only
    rw [constructLoop]
    rw [if_pos (by simp [Lexer.isDone])]
    rfl

/-- Evaluating the compiled literal pattern of a nonempty `S` against
any input consumes exactly `S.length` when `S` is a prefix of the
input, and fails otherwise. -/
theorem matchR_literalPattern (S t : List Char) (hS : S ≠ []) :
    matchR (S.length + 4) (literalPattern S) t =
      some (if S <+: t then (S.length : Int) else -1) := by
  have hne : S.isEmpty = false := by
    cases S with
    | nil => exact absurd rfl hS
    | cons c S' => rfl
  unfold literalPattern
  rw [hne]
  simp only [Bool.false_eq_true, if_false]
  rw [show S.length + 4 = (S.length + 3) + 1 from rfl, matchR]
  rw [show S.length + 3 = (S.length + 2) + 1 from rfl, matchList]
  rw [show S.length + 2 = (S.length + 1) + 1 from rfl, matchR]
  rw [matchList_chars S t (S.length + 1) le_rfl]
  dsimp only
  by_cases hpre : S <+: t
  · rw [if_pos hpre]
    rw [if_neg (not_lt.mpr (Int.natCast_nonneg S.length))]
    rw [show ((S.length + 1) + 1) = (S.length + 1) + 1 from rfl, matchList]
    simp [hpre]
  · rw [if_neg hpre]
    norm_num

/-- C7: for every string S containing none of the reserved
metacharacters `( ) [ ] | ? * + . ^ \`, compile(S) succeeds (yielding
the top-level Group over the literal run), the resulting pattern's
fullMatch(S) is true, and fullMatch(t) is false for every proper prefix
and every proper suffix t of S.  (The input-length bound reflects that
a C++ `std::string_view` always has `size() < 2^64`.) -/
theorem literal_strings_roundtrip (S : List Char) (c0 : Int)
    (hmeta : ∀ ch ∈ S, ch ∉ metaChars) (hlen : S.length < 2 ^ 64) :
    constructRegix 3 S c0 = PRes.ok (literalPattern S) ∧
    doesMatch (S.length + 4) (literalPattern S) S = some true ∧
    ∀ t : List Char, (t <+: S ∨ t <:+ S) → t ≠ S →
      doesMatch (S.length + 4) (literalPattern S) t = some false := by
  refine ⟨constructRegix_literal S c0 hmeta, ?_, ?_⟩
  · by_cases hS : S = []
    · subst hS; rfl
    · unfold doesMatch
      rw [matchR_literalPattern S S hS]
      rw [if_pos (List.prefix_refl S)]
      have hmod : ((S.length : Int) % (2 ^ 64 : Int)) = (S.length : Int) :=
        Int.emod_eq_of_lt (Int.natCast_nonneg _) (by exact_mod_cast hlen)
      show some (((S.length : Int) % (2 ^ 64 : Int)) == Int.ofNat S.length) = some true
      rw [hmod, Int.ofNat_eq_natCast]
      simp
  · intro t hts hne
    have hlt : t.length < S.length := by
      rcases hts with hp | hs
      · rcases Nat.lt_or_ge t.length S.length with h | h
        · exact h
        · exact absurd (hp.eq_of_length (Nat.le_antisymm hp.length_le h)) hne
      · rcases Nat.lt_or_ge t.length S.length with h | h
        · exact h
        · exact absurd (hs.eq_of_length (Nat.le_antisymm hs.length_le h)) hne
    have hS : S ≠ [] := by
      intro h; subst h; simp at hlt
    unfold doesMatch
    rw [matchR_literalPattern S t hS]
    have hnp : ¬ S <+: t := fun hp => by
      have := hp.length_le; omega
    rw [if_neg hnp]
    have hmod : ((-1 : Int) % (2 ^ 64 : Int)) = 2 ^ 64 - 1 := by decide
    have htl : t.length < 2 ^ 64 - 1 := by omega
    show some (((-1 : Int) % (2 ^ 64 : Int)) == Int.ofNat t.length) = some false
    rw [hmod]
    refine congrArg some ?_
    rw [beq_eq_false_iff_ne, Int.ofNat_eq_natCast]
    intro he
    omega

/-- Witness for `literal_strings_roundtrip` at S = "ab", t = "a". -/
theorem literal_strings_roundtrip_witness :
    constructRegix 3 ['a', 'b'] 0 = PRes.ok (literalPattern ['a', 'b']) ∧
    doesMatch 6 (literalPattern ['a', 'b']) ['a', 'b'] = some true ∧
    doesMatch 6 (literalPattern ['a', 'b']) ['a'] = some false := by
  have h := literal_strings_roundtrip ['a', 'b'] 0 (by decide) (by norm_num)
  exact ⟨h.1, h.2.1, h.2.2 ['a'] (Or.inl ⟨['b'], rfl⟩) (by decide)⟩

/-- The `'^'` case of `parseRegix` never consumes the caret before
recursing, so the recursion re-reads the same position forever. -/
theorem parseRegix_caret (f : Nat) :
    ∀ (l : Lexer) (buf : List Regix) (cg : Int),
      l.data.get? l.index = some '^' →
      parseRegix f l buf cg = PRes.fuelOut := by
  induction f with
  | zero => intros; rfl
  | succ g ih =>
    intro l buf cg h
    rw [parseRegix, h]
    dsimp only
    rw [if_neg (by decide : ¬ ('^' : Char) = '(')]
    rw [if_neg (by decide : ¬ ('^' : Char) = '[')]
    rw [if_neg (by decide : ¬ ('^' : Char) = '|')]
    rw [if_neg (by decide : ¬ ('^' : Char) = '?')]
    rw [if_neg (by decide : ¬ ('^' : Char) = '*')]
    rw [if_neg (by decide : ¬ ('^' : Char) = '+')]
    rw [if_neg (by decide : ¬ ('^' : Char) = '.')]
    rw [if_pos (rfl : ('^' : Char) = '^')]
    rw [ih l [] cg h]

/-- C3: compiling "^a" does not succeed: because the `'^'` case of
`parseRegix` never consumes the caret, `constructRegix` recurses at the
same position at every fuel (in C++, unbounded recursion and a stack
overflow), so no `Negation` pattern is ever produced. -/
theorem caret_compile_diverges :
    ∀ (f : Nat) (c0 : Int), constructRegix f ['^', 'a'] c0 = PRes.fuelOut := by
  intro f c0
  cases f with
  | zero => rfl
  | succ g =>
    show constructLoop (g + 1) ⟨['^', 'a'], 0⟩ [] c0 = PRes.fuelOut
    rw [constructLoop]
    rw [if_neg (by decide : ¬ (Lexer.mk ['^', 'a'] 0).isDone = true)]
    rw [parseRegix_caret g ⟨['^', 'a'], 0⟩ [] c0 rfl]

/-- The pattern string "(ab)". -/
def sAB : List Char := ['(', 'a', 'b', ')']

/-- In "(ab)" the closing parenthesis sits at the final index 3, where
`Lexer::isPeek` (bound check `index + 1 >= size`) never sees it, so the
group loop spins forever without consuming anything. -/
theorem parseLoop_stuck_ab (f : Nat) :
    ∀ (buf : List Regix) (cg : Int),
      parseLoop f ')' ⟨sAB, 3⟩ buf cg = PRes.fuelOut := by
  induction f with
  | zero => intros; rfl
  | succ g ih =>
    intro buf cg
    rw [parseLoop]
    rw [if_neg (by decide : ¬ (Lexer.mk sAB 3).isPeekC ')' = true)]
    cases g with
    | zero => rfl
    | succ g1 =>
      have hp : parseRegix (g1 + 1) ⟨sAB, 3⟩ buf cg =
          PRes.ok (false, ⟨sAB, 3⟩, buf, cg) := rfl
      rw [hp]
      exact ih buf cg

/-- The group loop of "(ab)" parses the literal run and then reaches
the stuck state of `parseLoop_stuck_ab`. -/
theorem parseLoop_enter_ab (f : Nat) :
    ∀ cg : Int, parseLoop f ')' ⟨sAB, 1⟩ [] cg = PRes.fuelOut := by
  intro cg
  cases f with
  | zero => rfl
  | succ g =>
    rw [parseLoop]
    rw [if_neg (by decide : ¬ (Lexer.mk sAB 1).isPeekC ')' = true)]
    cases g with
    | zero => rfl
    | succ g1 =>
      have hp : parseRegix (g1 + 1) ⟨sAB, 1⟩ [] cg =
          PRes.ok (true, ⟨sAB, 3⟩,
            [Regix.group [Regix.char 'a', Regix.char 'b']], cg) := rfl
      rw [hp]
      exact parseLoop_stuck_ab (g1 + 1) _ cg

/-- C5: compiling "(ab)" does not terminate at any fuel: the final
`')'` is never recognised by the off-by-one `Lexer::isPeek`, so no
capture table entry can ever be produced for this pattern. -/
theorem compile_ab_diverges :
    ∀ (f : Nat) (c0 : Int), constructRegix f sAB c0 = PRes.fuelOut := by
  intro f c0
  cases f with
  | zero => rfl
  | succ g =>
    show constructLoop (g + 1) ⟨sAB, 0⟩ [] c0 = PRes.fuelOut
    rw [constructLoop]
    rw [if_neg (by decide : ¬ (Lexer.mk sAB 0).isDone = true)]
    cases g with
    | zero => rfl
    | succ g1 =>
      have hp : parseRegix (g1 + 1) ⟨sAB, 0⟩ [] c0 = PRes.fuelOut := by
        rw [parseRegix]
        rw [show (Lexer.mk sAB 0).data.get? (Lexer.mk sAB 0).index = some '(' from rfl]
        dsimp only
        rw [if_pos (rfl : ('(' : Char) = '(')]
        rw [show (Lexer.mk sAB 0).bump = ⟨sAB, 1⟩ from rfl]
        rw [parseLoop_enter_ab g1 c0]
      rw [hp]

/-- The pattern string "((a)(b))". -/
def s8 : List Char := ['(', '(', 'a', ')', '(', 'b', ')', ')']

/-- In "((a)(b))" the outermost closing parenthesis sits at the final
index 7, which the off-by-one `Lexer::isPeek` never sees. -/
theorem parseLoop_stuck_8 (f : Nat) :
    ∀ (buf : List Regix) (cg : Int),
      parseLoop f ')' ⟨s8, 7⟩ buf cg = PRes.fuelOut := by
  induction f with
  | zero => intros; rfl
  | succ g ih =>
    intro buf cg
    rw [parseLoop]
    rw [if_neg (by decide : ¬ (Lexer.mk s8 7).isPeekC ')' = true)]
    cases g with
    | zero => rfl
    | succ g1 =>
      have hp : parseRegix (g1 + 1) ⟨s8, 7⟩ buf cg =
          PRes.ok (false, ⟨s8, 7⟩, buf, cg) := rfl
      rw [hp]
      exact ih buf cg

/-- The outer group loop of "((a)(b))", standing before "(b)",
captures the inner group and then reaches the stuck final index. -/
theorem parseLoop_mid_8 (f : Nat) :
    ∀ (buf : List Regix) (cg : Int),
      parseLoop f ')' ⟨s8, 4⟩ buf cg = PRes.fuelOut := by
  intro buf cg
  cases f with
  | zero => rfl
  | succ g =>
    rw [parseLoop]
    rw [if_neg (by decide : ¬ (Lexer.mk s8 4).isPeekC ')' = true)]
    cases g with
    | zero => rfl
    | succ g1 =>
      cases g1 with
      | zero => rfl
      | succ h =>
        cases h with
        | zero => rfl
        | succ h1 =>
          have hp : parseRegix (h1 + 1 + 1 + 1) ⟨s8, 4⟩ buf cg =
              PRes.ok (true, ⟨s8, 7⟩,
                buf ++ [Regix.capture [Regix.group [Regix.char 'b']] cg], cg + 1) := rfl
          rw [hp]
          exact parseLoop_stuck_8 _ _ _

/-- The outer group loop of "((a)(b))", standing before "(a)",
captures the inner group and then continues into `parseLoop_mid_8`. -/
theorem parseLoop_top_8 (f : Nat) :
    ∀ cg : Int, parseLoop f ')' ⟨s8, 1⟩ [] cg = PRes.fuelOut := by
  intro cg
  cases f with
  | zero => rfl
  | succ g =>
    rw [parseLoop]
    rw [if_neg (by decide : ¬ (Lexer.mk s8 1).isPeekC ')' = true)]
    cases g with
    | zero => rfl
    | succ g1 =>
      cases g1 with
      | zero => rfl
      | succ h =>
        cases h with
        | zero => rfl
        | succ h1 =>
          have hp : parseRegix (h1 + 1 + 1 + 1) ⟨s8, 1⟩ [] cg =
              PRes.ok (true, ⟨s8, 4⟩,
                [Regix.capture [Regix.group [Regix.char 'a']] cg], cg + 1) := rfl
          rw [hp]
          exact parseLoop_mid_8 _ _ _

/-- C4: compiling "((a)(b))" does not terminate at any fuel (the
outermost `')'` at the final index is never recognised by the
off-by-one `Lexer::isPeek`), so no capture ids are ever assigned for
the spec's example of nested groups. -/
theorem compile_nested_groups_diverges :
    ∀ (f : Nat) (c0 : Int), constructRegix f s8 c0 = PRes.fuelOut := by
  intro f c0
  cases f with
  | zero => rfl
  | succ g =>
    show constructLoop (g + 1) ⟨s8, 0⟩ [] c0 = PRes.fuelOut
    rw [constructLoop]
    rw [if_neg (by decide : ¬ (Lexer.mk s8 0).isDone = true)]
    cases g with
    | zero => rfl
    | succ g1 =>
      have hp : parseRegix (g1 + 1) ⟨s8, 0⟩ [] c0 = PRes.fuelOut := by
        rw [parseRegix]
        rw [show (Lexer.mk s8 0).data.get? (Lexer.mk s8 0).index = some '(' from rfl]
        dsimp only
        rw [if_pos (rfl : ('(' : Char) = '(')]
        rw [show (Lexer.mk s8 0).bump = ⟨s8, 1⟩ from rfl]
        rw [parseLoop_top_8 g1 c0]
      rw [hp]

/-- C2: the malformed patterns "*" and "|" are not reported to the
caller as invalid: `constructRegix` ignores the `false` returned by
`parseRegix` and silently returns an empty `Group` pattern (no
PatternError outcome exists anywhere in the code), and for "(" the
parse reads `l.data[l.index]` past the end of the pattern (undefined
behaviour in C++, `.oob` here) instead of reporting an error. -/
theorem malformed_silently_accepted (c0 : Int) :
    constructRegix 2 ['*'] c0 = PRes.ok (Regix.group []) ∧
    constructRegix 2 ['|'] c0 = PRes.ok (Regix.group []) ∧
    constructRegix 4 ['('] c0 = PRes.oob :=
  ⟨rfl, rfl, rfl⟩

/-- C8: the compiler does construct zero-child `Sequence` /
`CapturingGroup` nodes: "[]x" is accepted with an empty `Group` child
and "()x" with an empty `Capture` child — the `'['` / `'('` cases
never check the parsed group for emptiness (only literal runs do). -/
theorem empty_sequence_constructed (c0 : Int) :
    constructRegix 4 ['[', ']', 'x'] c0 =
      PRes.ok (Regix.group [Regix.group [], Regix.group [Regix.char 'x']]) ∧
    constructRegix 4 ['(', ')', 'x'] c0 =
      PRes.ok (Regix.group [Regix.capture [] c0, Regix.group [Regix.char 'x']]) :=
  ⟨rfl, rfl⟩

/-- C6: `XAndMore::match` does not start its repetition count and
accumulated length at zero — both locals are uninitialised in the C++.
With the compiled "a+" child on the empty input, a residual stack
value 1 read as `matchCount` makes the node succeed with the residual
`matchAmount` (here 0), and 0 then compares equal to the input length,
i.e. `fullMatch("")` would be true; the claimed behaviour (failure)
occurs only when the residual count happens to be 0. -/
theorem repeat_uninitialised_locals (c0 : Int) :
    constructRegix 4 ['a', '+'] c0 =
      PRes.ok (Regix.group [Regix.xAndMore (Regix.group [Regix.char 'a']) 1]) ∧
    xLoopG 4 (Regix.group [Regix.char 'a']) 1 0 0 [] = some (-1) ∧
    xLoopG 4 (Regix.group [Regix.char 'a']) 1 1 0 [] = some 0 ∧
    (((0 : Int) % (2 ^ 64 : Int)) == Int.ofNat ([] : List Char).length) = true :=
  ⟨rfl, rfl, rfl, by decide⟩

/-- C10: two invocations of `doesMatch` on the same compiled pattern
and input need not agree, because `XAndMore::match` reads its
uninitialised locals: with the compiled "a*" pattern on the empty
input, the root consumed length is whatever residual `matchAmount` the
stack holds (0 and 5 shown), and the whole-match comparison then
differs between invocations.  The AST itself is never written by
matching (the match functions take it as a pure value). -/
theorem match_uninitialised_nondeterminism (c0 : Int) :
    constructRegix 4 ['a', '*'] c0 =
      PRes.ok (Regix.group [Regix.xAndMore (Regix.group [Regix.char 'a']) 0]) ∧
    xLoopG 4 (Regix.group [Regix.char 'a']) 0 0 0 [] = some 0 ∧
    xLoopG 4 (Regix.group [Regix.char 'a']) 0 0 5 [] = some 5 ∧
    (((0 : Int) % (2 ^ 64 : Int)) == Int.ofNat ([] : List Char).length) = true ∧
    (((5 : Int) % (2 ^ 64 : Int)) == Int.ofNat ([] : List Char).length) = false :=
  ⟨rfl, rfl, rfl, by decide, by decide⟩

/-- C1 counterexample: with the compiled pattern of "a" and an input
of length 2^64 - 1 (the largest value `std::string_view::size()` can
take), the root match fails with the -1 signal, yet `doesMatch`
converts the signed -1 to `size_t` for the `res == source.size()`
comparison and reports a successful full match. -/
theorem failure_reported_as_match :
    constructRegix 3 ['a'] 0 =
      PRes.ok (Regix.group [Regix.group [Regix.char 'a']]) ∧
    matchR 5 (Regix.group [Regix.group [Regix.char 'a']])
      (List.replicate (2 ^ 64 - 1) 'b') = some (-1) ∧
    doesMatch 5 (Regix.group [Regix.group [Regix.char 'a']])
      (List.replicate (2 ^ 64 - 1) 'b') = some true := by
  have hrep : List.replicate (2 ^ 64 - 1) 'b' =
      'b' :: List.replicate (2 ^ 64 - 2) 'b' := by
    rw [show (2 ^ 64 - 1 : Nat) = (2 ^ 64 - 2) + 1 by norm_num,
      List.replicate_succ]
  have hm : matchR 5 (Regix.group [Regix.group [Regix.char 'a']])
      (List.replicate (2 ^ 64 - 1) 'b') = some (-1) := by
    rw [hrep]; rfl
  refine ⟨rfl, hm, ?_⟩
  unfold doesMatch
  rw [hm]
  show some (((-1 : Int) % (2 ^ 64 : Int)) ==
    Int.ofNat (List.replicate (2 ^ 64 - 1) 'b').length) = some true
  rw [List.length_replicate]
  decide

/-- C1 (amended): for inputs whose length (plus the pattern's `Not`
node count, which bounds how far a consumed length can exceed the
input) stays below 2^64 - 1, `doesMatch` returns true exactly when the
root evaluation, started at offset 0 with no search over other
offsets, succeeds with consumed length equal to the input length; in
particular the -1 failure signal is never reported as a match.  At
input length exactly 2^64 - 1 the unsigned conversion makes -1 compare
equal to the size (see `failure_reported_as_match`). -/
theorem doesMatch_characterisation (f : Nat) (p : Regix) (s : List Char) (r : Int)
    (hm : matchR f p s = some r)
    (hlen : s.length + notCount p < 2 ^ 64 - 1) :
    doesMatch f p s = some true ↔ r = Int.ofNat s.length := by
  unfold doesMatch
  rw [hm]
  show some ((r % (2 ^ 64 : Int)) == Int.ofNat s.length) = some true ↔ _
  rw [Int.ofNat_eq_natCast]
  constructor
  · intro h
    have hb : (r % (2 ^ 64 : Int)) = (s.length : Int) := by
      have h1 : ((r % (2 ^ 64 : Int)) == (s.length : Int)) = true := by
        exact Option.some_inj.mp h
      exact beq_iff_eq.mp h1
    rcases matchR_bound hm with h1 | h1
    · subst h1
      have hmod : ((-1 : Int) % (2 ^ 64 : Int)) = 2 ^ 64 - 1 := by decide
      rw [hmod] at hb
      omega
    · have hr : (r % (2 ^ 64 : Int)) = r := by
        apply Int.emod_eq_of_lt h1.1
        have := h1.2
        push_cast
        omega
      rw [hr] at hb
      exact hb
  · intro h
    subst h
    have hr : (((s.length : Int)) % (2 ^ 64 : Int)) = (s.length : Int) := by
      apply Int.emod_eq_of_lt (Int.natCast_nonneg _)
      push_cast
      omega
    rw [hr]
    simp

/-- Witness for `doesMatch_characterisation` on pattern "a", input "a". -/
theorem doesMatch_characterisation_witness :
    doesMatch 5 (Regix.group [Regix.group [Regix.char 'a']]) ['a'] = some true := by
  have h := doesMatch_characterisation 5
    (Regix.group [Regix.group [Regix.char 'a']]) ['a'] 1 rfl (by decide)
  exact h.mpr rfl

/-- C9 counterexample: `Not::match` reports its fixed consumed length
1 even on the empty input slice, exceeding the slice length 0. -/
theorem negation_exceeds_slice :
    matchR 2 (Regix.not (Regix.char 'a')) [] = some 1 ∧
    ¬ ((1 : Int) ≤ ((([] : List Char).length : Nat) : Int)) :=
  ⟨rfl, by decide⟩

/-- C9 (amended): every defined evaluation returns either the failure
signal -1 or a nonnegative consumed length, and for every node
containing no `Negation` the consumed length never exceeds the length
of the input slice; `Negation` itself can exceed an empty slice by its
fixed nominal 1 (see `negation_exceeds_slice`), which propagates as
the `notCount` term of `matchR_bound`. -/
theorem match_result_bounds (f : Nat) (p : Regix) (s : List Char) (r : Int)
    (hm : matchR f p s = some r) :
    (r = -1 ∨ 0 ≤ r) ∧ (notCount p = 0 → r ≤ (s.length : Int)) := by
  rcases matchR_bound hm with h1 | h1
  · refine ⟨Or.inl h1, fun _ => ?_⟩
    subst h1
    omega
  · refine ⟨Or.inr h1.1, fun hz => ?_⟩
    have := h1.2
    rw [hz] at this
    simpa using this

/-- Witness for `match_result_bounds` on the `Char` node 'a' and
input "a". -/
theorem match_result_bounds_witness :
    ((1 : Int) = -1 ∨ 0 ≤ (1 : Int)) ∧
    (notCount (Regix.char 'a') = 0 → (1 : Int) ≤ (((['a'] : List Char).length : Nat) : Int)) :=
  match_result_bounds 2 (Regix.char 'a') ['a'] 1 rfl
